import Mathlib

/-!
Shallow embedding of the RC5 cipher crate (word arithmetic, pseudo-random
key sequence, key schedule, block round function and block codec), together
with theorems settling the specification claims.

Words of bit width `w` are modelled as natural numbers below `2 ^ w`;
wrapping arithmetic is explicit `% 2 ^ w`.  Code that can panic in the
source (slice indexing out of bounds, division by zero in the index
update) is modelled with `Option`, `none` standing for a panic.
-/

namespace RC5

/-- `Error` of the block codec: the single failure kind of the core. -/
inductive Error where
  | WrongInputSize
deriving DecidableEq, Repr

deriving instance DecidableEq for Except

/-- Wrapping addition of `w`-bit words (`wrapping_add`). -/
def wadd (w x y : Nat) : Nat := (x + y) % 2 ^ w

/-- Wrapping subtraction of `w`-bit words (`wrapping_sub`). -/
def wsub (w x y : Nat) : Nat := (x + (2 ^ w - y % 2 ^ w)) % 2 ^ w

/-- The `rotate_left` intrinsic on a `w`-bit word: the amount is taken
modulo `w`; low bits move up, the truncated high bits wrap to the bottom. -/
def rotl (w x n : Nat) : Nat :=
  (x % 2 ^ (w - n % w)) * 2 ^ (n % w) + x / 2 ^ (w - n % w)

/-- The `rotate_right` intrinsic on a `w`-bit word. -/
def rotr (w x n : Nat) : Nat :=
  x / 2 ^ (n % w) + (x % 2 ^ (n % w)) * 2 ^ (w - n % w)

/-- `RotateWordLeft::rotate_word_left`: the amount `n` (itself a word) is
first reduced `rem BITS` and then handed to the `rotate_left` intrinsic. -/
def rotate_word_left (w x n : Nat) : Nat := rotl w x (n % w)

/-- `RotateWordRight::rotate_word_right`: the amount `n` is first reduced
`rem BITS` and then handed to the `rotate_right` intrinsic. -/
def rotate_word_right (w x n : Nat) : Nat := rotr w x (n % w)

/-- The per-width magic constant `P` (`GetP` impls); widths other than the
five implemented ones have no impl in the source. -/
def GetP (w : Nat) : Nat :=
  if w = 8 then 0xb7
  else if w = 16 then 0xb7e1
  else if w = 32 then 0xb7e15163
  else if w = 64 then 0xb7e151628aed2a6b
  else if w = 128 then 0xb7e151628aed2a6abf7158809cf4f3c7
  else 0

/-- The per-width magic constant `Q` (`GetQ` impls). -/
def GetQ (w : Nat) : Nat :=
  if w = 8 then 0x9f
  else if w = 16 then 0x9e37
  else if w = 32 then 0x9e3779b9
  else if w = 64 then 0x9e3779b97f4a7c15
  else if w = 128 then 0x9e3779b97f4a7c15f39cc0605cedc835
  else 0

/-- Taking `n` items from `PresudoRandomKeySequenceIterator` started in a
state whose next emitted value is `s`: each `next()` returns the state and
advances it by a wrapping add of `Q`. -/
def prksTake (w : Nat) : Nat → Nat → List Nat
  | _, 0 => []
  | s, n + 1 => s :: prksTake w (wadd w s (GetQ w)) n

/-- `PresudoRandomKeySequenceIterator::collect_for_rounds_count`: take
`2 * (rounds_count + 1)` items of the sequence started at `P` (the
`Default` state). -/
def collect_for_rounds_count (w rounds_count : Nat) : List Nat :=
  prksTake w (GetP w) (2 * (rounds_count + 1))

/-- The pseudo-random key sequence as the spec words it:
`S 0 = P` and `S (i+1) = S i + Q` with wraparound addition. -/
def seqSpec (w : Nat) : Nat → Nat
  | 0 => GetP w
  | i + 1 => wadd w (seqSpec w i) (GetQ w)

/-- The write-back loop of `expand_key_to_words`, iterating the secret key
byte index `i` downward from `b - 1` to `0`.  Each step reads
`words[i / BYTES]` (a panic, hence `none`, when out of bounds), rotates it
left by `8` and wrapping-adds the key byte, writing the result back. -/
def expandLoop (w : Nat) (key : List Nat) : Nat → List Nat → Option (List Nat)
  | 0, words => some words
  | i + 1, words =>
    match words.get? (i / (w / 8)) with
    | none => none
    | some cur =>
      expandLoop w key i (words.set (i / (w / 8)) (wadd w (rotate_word_left w cur 8) (key.getD i 0)))

/-- `expand_key_to_words`: allocate `max(SIZE_HINT, 1) / BYTES` zero words
and fold the key bytes into them from the last byte down to the first. -/
def expand_key_to_words (w : Nat) (key : List Nat) : Option (List Nat) :=
  expandLoop w key key.length (List.replicate (max key.length 1 / (w / 8)) 0)

/-- One iteration of the `MixinKey::mixin` loop on state
`(S, L, a, b, i, j)`: rotate `S[i] + a + b` left by `3` into `a` and
`S[i]`, rotate `L[j] + a + b` left by the word amount `a + b` into `b` and
`L[j]`, then advance both indices cyclically.  Indices stay in bounds by
construction (`% len` with nonempty lists), so plain `getD`/`set` are
exact. -/
def mixinLoop (w : Nat) : Nat → List Nat → List Nat → Nat → Nat → Nat → Nat → List Nat × List Nat
  | 0, S, L, _, _, _, _ => (S, L)
  | fuel + 1, S, L, a, b, i, j =>
    let a2 := rotl w (wadd w (wadd w (S.getD i 0) a) b) 3
    let S2 := S.set i a2
    let b2 := rotate_word_left w (wadd w (wadd w (L.getD j 0) a2) b) (wadd w a2 b)
    let L2 := L.set j b2
    mixinLoop w fuel S2 L2 a2 b2 ((i + 1) % S2.length) ((j + 1) % L2.length)

/-- `MixinKey::mixin`: collect the pseudo-random sequence for the round
count, expand the key to words, then run `3 * max(t, c)` mixing
iterations and return the mixed table `S`.  When key expansion panics, or
yields no words (then the loop's very first `key_words[0]` access — the
loop runs `3 * t ≥ 6` times — panics), the result is `none`. -/
def mixin (w : Nat) (key : List Nat) (rounds_count : Nat) : Option (List Nat) :=
  let mixed_key := collect_for_rounds_count w rounds_count
  match expand_key_to_words w key with
  | none => none
  | some key_words =>
    if key_words.length = 0 then none
    else some (mixinLoop w (3 * max mixed_key.length key_words.length)
        mixed_key key_words 0 0 0 0).1

/-- One iteration of the `rc5_encode` round loop at round `index`:
`a = ((a ^ b) <<< b) + S[2*index]` then `b = ((b ^ a) <<< a) + S[2*index+1]`
(the second rotation uses the just-updated `a`); a table access out of
bounds is a panic (`none`). -/
def encodeRound (w : Nat) (key_table : List Nat) (index : Nat) (ab : Nat × Nat) : Option (Nat × Nat) :=
  match key_table.get? (2 * index) with
  | none => none
  | some k =>
    let a := wadd w (rotate_word_left w (ab.1 ^^^ ab.2) ab.2) k
    match key_table.get? (2 * index + 1) with
    | none => none
    | some k2 =>
      some (a, wadd w (rotate_word_left w (ab.2 ^^^ a) a) k2)

/-- The `rc5_encode` round loop, rounds `index, index+1, …, index+n-1`. -/
def encodeRounds (w : Nat) (key_table : List Nat) : Nat → Nat → Nat × Nat → Option (Nat × Nat)
  | _, 0, ab => some ab
  | index, n + 1, ab =>
    match encodeRound w key_table index ab with
    | none => none
    | some ab2 => encodeRounds w key_table (index + 1) n ab2

/-- `rc5_encode`: add `S[0]` to `a` and `S[1]` to `b`, then run the round
loop for `index in 1..=round_count`. -/
def rc5_encode (w : Nat) (key_table : List Nat) (round_count : Nat) (block : Nat × Nat) : Option (Nat × Nat) :=
  match key_table.get? 0 with
  | none => none
  | some k0 =>
    match key_table.get? 1 with
    | none => none
    | some k1 =>
      encodeRounds w key_table 1 round_count (wadd w block.1 k0, wadd w block.2 k1)

/-- One iteration of the `rc5_decode` round loop at round `index`:
`b = ((b - S[2*index+1]) >>> a) ^ a` then `a = ((a - S[2*index]) >>> b) ^ b`
(the second rotation uses the just-updated `b`). -/
def decodeRound (w : Nat) (key_table : List Nat) (index : Nat) (ab : Nat × Nat) : Option (Nat × Nat) :=
  match key_table.get? (2 * index + 1) with
  | none => none
  | some k2 =>
    let b := (rotate_word_right w (wsub w ab.2 k2) ab.1) ^^^ ab.1
    match key_table.get? (2 * index) with
    | none => none
    | some k =>
      some ((rotate_word_right w (wsub w ab.1 k) b) ^^^ b, b)

/-- The `rc5_decode` round loop, rounds `n, n-1, …, 1` (the source's
`(1..=round_count).rev()`). -/
def decodeRounds (w : Nat) (key_table : List Nat) : Nat → Nat × Nat → Option (Nat × Nat)
  | 0, ab => some ab
  | n + 1, ab =>
    match decodeRound w key_table (n + 1) ab with
    | none => none
    | some ab2 => decodeRounds w key_table n ab2

/-- `rc5_decode`: run the reversed round loop, then subtract `S[1]` from
`b` and `S[0]` from `a`. -/
def rc5_decode (w : Nat) (key_table : List Nat) (round_count : Nat) (block : Nat × Nat) : Option (Nat × Nat) :=
  match decodeRounds w key_table round_count block with
  | none => none
  | some ab =>
    match key_table.get? 1 with
    | none => none
    | some k1 =>
      match key_table.get? 0 with
      | none => none
      | some k0 => some (wsub w ab.1 k0, wsub w ab.2 k1)

/-- `from_le_bytes`: a little-endian byte list to the word it denotes. -/
def wordFromLE (bytes : List Nat) : Nat :=
  bytes.foldr (fun b acc => acc * 256 + b) 0

/-- `into_le_bytes`: the `u` little-endian bytes of a word. -/
def wordToLE : Nat → Nat → List Nat
  | 0, _ => []
  | u + 1, x => x % 256 :: wordToLE u (x / 256)

/-- `slice::chunks(u)` unrolled for a known chunk count: `k` full chunks
of `u` elements and then the ragged remainder, if any. -/
def chunksGo (u : Nat) : Nat → List Nat → List (List Nat)
  | 0, l => if l.isEmpty then [] else [l]
  | k + 1, l => l.take u :: chunksGo u k (l.drop u)

/-- `slice::chunks(u)`: split into `length / u` full chunks plus the
ragged remainder. -/
def chunks (u : Nat) (l : List Nat) : List (List Nat) :=
  chunksGo u (l.length / u) l

/-- The word pairing and folding of `process_blocks`: words are consumed
two at a time in input order; a full pair goes through the processor (a
panic there is `none`) and its output words are re-serialized
little-endian; a trailing lone word is `WrongInputSize`. -/
def processPairs (u : Nat) (processor : Nat × Nat → Option (Nat × Nat)) : List Nat → Option (Except Error (List Nat))
  | [] => some (Except.ok [])
  | [_] => some (Except.error Error.WrongInputSize)
  | x :: y :: rest =>
    match processor (x, y) with
    | none => none
    | some ab =>
      match processPairs u processor rest with
      | none => none
      | some (Except.error e) => some (Except.error e)
      | some (Except.ok out) => some (Except.ok (wordToLE u ab.1 ++ wordToLE u ab.2 ++ out))

/-- `process_blocks`: reject a byte length that is not a multiple of the
word byte count, else split into little-endian words and process them in
pairs. -/
def process_blocks (w : Nat) (input : List Nat) (processor : Nat × Nat → Option (Nat × Nat)) : Option (Except Error (List Nat)) :=
  if input.length % (w / 8) ≠ 0 then some (Except.error Error.WrongInputSize)
  else processPairs (w / 8) processor ((chunks (w / 8) input).map wordFromLE)

/-- `EncodeAsBlocks::encode_as_blocks`: process the input blockwise with
`rc5_encode` under the key table mixed inside the processor closure. -/
def encode_as_blocks (w : Nat) (key : List Nat) (round_count : Nat) (input : List Nat) : Option (Except Error (List Nat)) :=
  process_blocks w input (fun b =>
    match mixin w key round_count with
    | none => none
    | some key_table => rc5_encode w key_table round_count b)

/-- `DecodeAsBlocks::decode_as_blocks`: process the input blockwise with
`rc5_decode` under the key table mixed inside the processor closure. -/
def decode_as_blocks (w : Nat) (key : List Nat) (round_count : Nat) (input : List Nat) : Option (Except Error (List Nat)) :=
  process_blocks w input (fun b =>
    match mixin w key round_count with
    | none => none
    | some key_table => rc5_decode w key_table round_count b)

/-! ### Word arithmetic lemmas -/

lemma wadd_lt (w x y : Nat) : wadd w x y < 2 ^ w :=
  Nat.mod_lt _ (Nat.pos_pow_of_pos w (by norm_num))

lemma wsub_wadd (w x y : Nat) (hx : x < 2 ^ w) : wsub w (wadd w x y) y = x := by
  unfold wadd wsub
  set n := 2 ^ w with hn
  have hn0 : 0 < n := Nat.pos_pow_of_pos w (by norm_num)
  rw [Nat.mod_add_mod]
  have hy := Nat.mod_add_div y n
  have hylt : y % n < n := Nat.mod_lt _ hn0
  have h1 : x + y + (n - y % n) = x + n * (y / n) + n * 1 := by omega
  rw [h1, Nat.add_mul_mod_self_left, Nat.add_mul_mod_self_left, Nat.mod_eq_of_lt hx]

lemma rotl_lt (w x n : Nat) (hw : 0 < w) (hx : x < 2 ^ w) : rotl w x n < 2 ^ w := by
  unfold rotl
  set r := n % w with hr
  set d := w - r with hd
  have hrw : r < w := Nat.mod_lt _ hw
  have hdr : 2 ^ d * 2 ^ r = 2 ^ w := by
    rw [← pow_add]; congr 1; omega
  have hq : x / 2 ^ d < 2 ^ r := by
    rw [Nat.div_lt_iff_lt_mul (Nat.pos_pow_of_pos d (by norm_num)),
      mul_comm (2 ^ r) (2 ^ d), hdr]
    exact hx
  have hm : x % 2 ^ d < 2 ^ d := Nat.mod_lt _ (Nat.pos_pow_of_pos d (by norm_num))
  calc x % 2 ^ d * 2 ^ r + x / 2 ^ d
      < x % 2 ^ d * 2 ^ r + 2 ^ r := Nat.add_lt_add_left hq _
    _ = (x % 2 ^ d + 1) * 2 ^ r := by ring
    _ ≤ 2 ^ d * 2 ^ r := Nat.mul_le_mul_right _ (Nat.succ_le_of_lt hm)
    _ = 2 ^ w := hdr

lemma rotr_rotl (w x n : Nat) (hw : 0 < w) (hx : x < 2 ^ w) :
    rotr w (rotl w x n) n = x := by
  unfold rotl rotr
  set r := n % w with hr
  set d := w - r with hd
  have hrw : r < w := Nat.mod_lt _ hw
  have hdr : 2 ^ d * 2 ^ r = 2 ^ w := by
    rw [← pow_add]; congr 1; omega
  set m := x % 2 ^ d with hm
  set q := x / 2 ^ d with hq
  have hqlt : q < 2 ^ r := by
    rw [hq, Nat.div_lt_iff_lt_mul (Nat.pos_pow_of_pos d (by norm_num)),
      mul_comm (2 ^ r) (2 ^ d), hdr]
    exact hx
  have hx2 : 2 ^ d * q + m = x := Nat.div_add_mod x (2 ^ d)
  have hdiv : (m * 2 ^ r + q) / 2 ^ r = m := by
    rw [mul_comm m (2 ^ r), Nat.mul_add_div (Nat.pos_pow_of_pos r (by norm_num)),
      Nat.div_eq_of_lt hqlt, Nat.add_zero]
  have hmod : (m * 2 ^ r + q) % 2 ^ r = q := by
    rw [mul_comm m (2 ^ r), Nat.mul_add_mod, Nat.mod_eq_of_lt hqlt]
  rw [hdiv, hmod, mul_comm q (2 ^ d)]; omega

lemma rotword_right_rotword_left (w x n : Nat) (hw : 0 < w) (hx : x < 2 ^ w) :
    rotate_word_right w (rotate_word_left w x n) n = x := by
  unfold rotate_word_left rotate_word_right
  have h1 : n % w % w = n % w := Nat.mod_mod_of_dvd n dvd_rfl
  rw [show rotl w x (n % w) = rotl w x n from by unfold rotl; rw [h1],
    show rotr w (rotl w x n) (n % w) = rotr w (rotl w x n) n from by unfold rotr; rw [h1]]
  exact rotr_rotl w x n hw hx

lemma rotword_left_lt (w x n : Nat) (hw : 0 < w) (hx : x < 2 ^ w) :
    rotate_word_left w x n < 2 ^ w := rotl_lt w x (n % w) hw hx

lemma xor_xor_cancel (a b : Nat) : a ^^^ b ^^^ b = a := by
  rw [Nat.xor_assoc, Nat.xor_self, Nat.xor_zero]

/-! ### Little-endian serialization lemmas -/

lemma wordToLE_length (u x : Nat) : (wordToLE u x).length = u := by
  induction u generalizing x with
  | zero => rfl
  | succ u ih => simp [wordToLE, ih]

lemma wordToLE_lt (u x : Nat) : ∀ b ∈ wordToLE u x, b < 256 := by
  induction u generalizing x with
  | zero => intro b hb; simp [wordToLE] at hb
  | succ u ih =>
    intro b hb
    simp only [wordToLE, List.mem_cons] at hb
    rcases hb with h | h
    · omega
    · exact ih _ b h

lemma wordFromLE_nil : wordFromLE [] = 0 := rfl

lemma wordFromLE_cons (b : Nat) (t : List Nat) :
    wordFromLE (b :: t) = wordFromLE t * 256 + b := rfl

lemma wordFromLE_toLE (u x : Nat) (hx : x < 256 ^ u) : wordFromLE (wordToLE u x) = x := by
  induction u generalizing x with
  | zero => interval_cases x; rfl
  | succ u ih =>
    rw [wordToLE, wordFromLE_cons, ih (x / 256) (by
      rw [Nat.div_lt_iff_lt_mul (by norm_num)]
      calc x < 256 ^ (u + 1) := hx
        _ = 256 ^ u * 256 := by ring)]
    omega

lemma wordToLE_fromLE (bs : List Nat) (hb : ∀ b ∈ bs, b < 256) :
    wordToLE bs.length (wordFromLE bs) = bs := by
  induction bs with
  | nil => rfl
  | cons b t ih =>
    have hblt : b < 256 := hb b (List.mem_cons_self b t)
    rw [List.length_cons, wordToLE, wordFromLE_cons, mul_comm (wordFromLE t) 256,
      Nat.mul_add_mod, Nat.mod_eq_of_lt hblt,
      Nat.mul_add_div (by norm_num), Nat.div_eq_of_lt hblt, Nat.add_zero,
      ih (fun c hc => hb c (List.mem_cons_of_mem b hc))]

lemma wordFromLE_lt (bs : List Nat) (hb : ∀ b ∈ bs, b < 256) :
    wordFromLE bs < 256 ^ bs.length := by
  induction bs with
  | nil => simp [wordFromLE_nil]
  | cons b t ih =>
    have hblt : b < 256 := hb b (List.mem_cons_self b t)
    have ht := ih (fun c hc => hb c (List.mem_cons_of_mem b hc))
    rw [wordFromLE_cons, List.length_cons, pow_succ]
    calc wordFromLE t * 256 + b < wordFromLE t * 256 + 256 := by omega
      _ = (wordFromLE t + 1) * 256 := by ring
      _ ≤ 256 ^ t.length * 256 := Nat.mul_le_mul_right _ (Nat.succ_le_of_lt ht)

/-! ### Chunking lemmas -/

lemma chunks_nil (u : Nat) : chunks u [] = [] := by
  simp [chunks, chunksGo]

lemma chunks_cons (u : Nat) (l1 l2 : List Nat) (h : l1.length = u) (hu : 0 < u) :
    chunks u (l1 ++ l2) = l1 :: chunks u l2 := by
  unfold chunks
  have hlen : (l1 ++ l2).length = l2.length + u := by
    rw [List.length_append, h]; omega
  rw [hlen, Nat.add_div_right _ hu, chunksGo, List.take_left' h, List.drop_left' h]

/-! ### Round function inversion -/

lemma encodeRound_inverse (w : Nat) (tbl : List Nat) (idx a b : Nat)
    (hw : 0 < w) (ha : a < 2 ^ w) (hb : b < 2 ^ w) (hlen : 2 * idx + 1 < tbl.length) :
    ∃ a2 b2, encodeRound w tbl idx (a, b) = some (a2, b2) ∧ a2 < 2 ^ w ∧ b2 < 2 ^ w ∧
      decodeRound w tbl idx (a2, b2) = some (a, b) := by
  have h0 : 2 * idx < tbl.length := by omega
  obtain ⟨k, hk⟩ : ∃ k, tbl.get? (2 * idx) = some k := ⟨_, List.get?_eq_get h0⟩
  obtain ⟨k2, hk2⟩ : ∃ k2, tbl.get? (2 * idx + 1) = some k2 := ⟨_, List.get?_eq_get hlen⟩
  set a2 := wadd w (rotate_word_left w (a ^^^ b) b) k with ha2def
  set b2 := wadd w (rotate_word_left w (b ^^^ a2) a2) k2 with hb2def
  have ha2 : a2 < 2 ^ w := wadd_lt w _ k
  have hb2 : b2 < 2 ^ w := wadd_lt w _ k2
  refine ⟨a2, b2, ?_, ha2, hb2, ?_⟩
  · unfold encodeRound
    rw [hk, hk2]
  · unfold decodeRound
    rw [hk2, hk]
    have hxba : b ^^^ a2 < 2 ^ w := Nat.xor_lt_two_pow hb ha2
    have hxab : a ^^^ b < 2 ^ w := Nat.xor_lt_two_pow ha hb
    have eb : rotate_word_right w (wsub w b2 k2) a2 ^^^ a2 = b := by
      rw [hb2def, wsub_wadd w _ k2 (rotword_left_lt w _ a2 hw hxba),
        rotword_right_rotword_left w _ a2 hw hxba, xor_xor_cancel]
    dsimp only
    rw [eb, ha2def, wsub_wadd w _ k (rotword_left_lt w _ b hw hxab),
      rotword_right_rotword_left w _ b hw hxab, xor_xor_cancel]

lemma encodeRounds_succ (w : Nat) (tbl : List Nat) (idx n : Nat) (ab : Nat × Nat) :
    encodeRounds w tbl idx (n + 1) ab =
      (encodeRounds w tbl idx n ab).bind (encodeRound w tbl (idx + n)) := by
  induction n generalizing idx ab with
  | zero =>
    cases h : encodeRound w tbl idx ab <;>
      simp [encodeRounds, h, Option.bind]
  | succ n ih =>
    show (match encodeRound w tbl idx ab with
      | none => none
      | some ab2 => encodeRounds w tbl (idx + 1) (n + 1) ab2) = _
    cases h : encodeRound w tbl idx ab with
    | none => simp [encodeRounds, h, Option.bind]
    | some ab2 =>
      dsimp only
      rw [ih (idx + 1) ab2, show idx + 1 + n = idx + (n + 1) from by omega]
      have hL : encodeRounds w tbl idx (n + 1) ab = encodeRounds w tbl (idx + 1) n ab2 := by
        show (match encodeRound w tbl idx ab with
          | none => none
          | some ab2 => encodeRounds w tbl (idx + 1) n ab2) = _
        rw [h]
      rw [hL]

lemma rounds_inverse (w : Nat) (tbl : List Nat) (n a b : Nat)
    (hw : 0 < w) (ha : a < 2 ^ w) (hb : b < 2 ^ w) (hlen : 2 * n + 1 < tbl.length) :
    ∃ a2 b2, encodeRounds w tbl 1 n (a, b) = some (a2, b2) ∧ a2 < 2 ^ w ∧ b2 < 2 ^ w ∧
      decodeRounds w tbl n (a2, b2) = some (a, b) := by
  induction n with
  | zero => exact ⟨a, b, rfl, ha, hb, rfl⟩
  | succ n ih =>
    obtain ⟨a1, b1, henc, ha1, hb1, hdec⟩ := ih (by omega)
    obtain ⟨a2, b2, hrnd, ha2, hb2, hrnddec⟩ :=
      encodeRound_inverse w tbl (n + 1) a1 b1 hw ha1 hb1 hlen
    refine ⟨a2, b2, ?_, ha2, hb2, ?_⟩
    · rw [encodeRounds_succ, henc]
      simpa [Nat.add_comm 1 n] using hrnd
    · show (match decodeRound w tbl (n + 1) (a2, b2) with
        | none => none
        | some ab2 => decodeRounds w tbl n ab2) = _
      rw [hrnddec]
      exact hdec

lemma rc5_roundtrip (w : Nat) (tbl : List Nat) (r a b : Nat)
    (hw : 0 < w) (ha : a < 2 ^ w) (hb : b < 2 ^ w) (hlen : tbl.length = 2 * (r + 1)) :
    ∃ a2 b2, rc5_encode w tbl r (a, b) = some (a2, b2) ∧ a2 < 2 ^ w ∧ b2 < 2 ^ w ∧
      rc5_decode w tbl r (a2, b2) = some (a, b) := by
  obtain ⟨k0, hk0⟩ : ∃ k0, tbl.get? 0 = some k0 := ⟨_, List.get?_eq_get (by omega)⟩
  obtain ⟨k1, hk1⟩ : ∃ k1, tbl.get? 1 = some k1 := ⟨_, List.get?_eq_get (by omega)⟩
  obtain ⟨a2, b2, henc, ha2, hb2, hdec⟩ :=
    rounds_inverse w tbl r (wadd w a k0) (wadd w b k1) hw (wadd_lt w a k0) (wadd_lt w b k1)
      (by omega)
  refine ⟨a2, b2, ?_, ha2, hb2, ?_⟩
  · unfold rc5_encode
    rw [hk0, hk1]
    exact henc
  · unfold rc5_decode
    rw [hdec, hk1, hk0]
    dsimp only
    rw [wsub_wadd w a k0 ha, wsub_wadd w b k1 hb]

/-! ### Key schedule lemmas -/

lemma prksTake_length (w : Nat) : ∀ (n s : Nat), (prksTake w s n).length = n := by
  intro n
  induction n with
  | zero => intro s; rfl
  | succ n ih => intro s; simp [prksTake, ih]

lemma collect_length (w r : Nat) : (collect_for_rounds_count w r).length = 2 * (r + 1) :=
  prksTake_length w _ _

lemma mixinLoop_fst_length (w : Nat) :
    ∀ (fuel : Nat) (S L : List Nat) (a b i j : Nat),
      ((mixinLoop w fuel S L a b i j).1).length = S.length := by
  intro fuel
  induction fuel with
  | zero => intro S L a b i j; rfl
  | succ fuel ih =>
    intro S L a b i j
    show ((mixinLoop w fuel _ _ _ _ _ _).1).length = _
    rw [ih]
    simp [List.length_set]

lemma expandLoop_some (w : Nat) (key : List Nat) :
    ∀ (i : Nat) (words : List Nat), (∀ m, m < i → m / (w / 8) < words.length) →
      ∃ res, expandLoop w key i words = some res ∧ res.length = words.length := by
  intro i
  induction i with
  | zero => intro words _; exact ⟨words, rfl, rfl⟩
  | succ i ih =>
    intro words hbound
    have hi : i / (w / 8) < words.length := hbound i (by omega)
    obtain ⟨cur, hcur⟩ : ∃ cur, words.get? (i / (w / 8)) = some cur :=
      ⟨_, List.get?_eq_get hi⟩
    obtain ⟨res, hres, hlen⟩ := ih
      (words.set (i / (w / 8)) (wadd w (rotate_word_left w cur 8) (key.getD i 0)))
      (fun m hm => by rw [List.length_set]; exact hbound m (by omega))
    refine ⟨res, ?_, by rw [hlen, List.length_set]⟩
    unfold expandLoop
    rw [hcur]
    exact hres

lemma expand_spec (w : Nat) (key : List Nat) (hu : 0 < w / 8)
    (hdvd : (w / 8) ∣ key.length) (hpos : 0 < key.length ∨ w / 8 = 1) :
    ∃ kw, expand_key_to_words w key = some kw ∧
      kw.length = max key.length 1 / (w / 8) ∧ 0 < kw.length := by
  set u := w / 8 with hudef
  rcases Nat.eq_zero_or_pos key.length with hb | hb
  · have hu1 : u = 1 := by
      rcases hpos with h | h
      · omega
      · exact h
    refine ⟨List.replicate (max key.length 1 / u) 0, ?_, ?_, ?_⟩
    · unfold expand_key_to_words
      rw [hb]
      rfl
    · rw [List.length_replicate]
    · rw [List.length_replicate, hb, hu1]
      norm_num
  · have hlen : max key.length 1 = key.length := by omega
    have hidx : ∀ m, m < key.length → m / u < max key.length 1 / u := by
      intro m hm
      rw [hlen]
      exact Nat.div_lt_div_of_lt_of_dvd hdvd hm
    obtain ⟨res, hres, hreslen⟩ := expandLoop_some w key key.length
      (List.replicate (max key.length 1 / u) 0)
      (fun m hm => by rw [List.length_replicate]; exact hidx m hm)
    refine ⟨res, hres, by rw [hreslen, List.length_replicate], ?_⟩
    rw [hreslen, List.length_replicate, hlen]
    have hule : u ≤ key.length := Nat.le_of_dvd hb hdvd
    exact Nat.div_pos hule hu

lemma mixin_spec (w : Nat) (key : List Nat) (r : Nat) (hu : 0 < w / 8)
    (hdvd : (w / 8) ∣ key.length) (hpos : 0 < key.length ∨ w / 8 = 1) :
    ∃ tbl, mixin w key r = some tbl ∧ tbl.length = 2 * (r + 1) := by
  obtain ⟨kw, hkw, _, hkwpos⟩ := expand_spec w key hu hdvd hpos
  refine ⟨(mixinLoop w (3 * max (collect_for_rounds_count w r).length kw.length)
      (collect_for_rounds_count w r) kw 0 0 0 0).1, ?_, ?_⟩
  · unfold mixin
    rw [hkw]
    simp only [if_neg (by omega : ¬ kw.length = 0)]
  · rw [mixinLoop_fst_length, collect_length]

/-! ### Codec pipeline lemmas -/

lemma processPairs_spec (u : Nat) (p : Nat × Nat → Option (Nat × Nat))
    (hp : ∀ blk, (p blk).isSome) :
    ∀ (N : Nat) (ws : List Nat), ws.length ≤ N →
      if 2 ∣ ws.length then
        ∃ out, processPairs u p ws = some (Except.ok out) ∧ out.length = u * ws.length
      else processPairs u p ws = some (Except.error Error.WrongInputSize) := by
  intro N
  induction N with
  | zero =>
    intro ws hlen
    have : ws = [] := List.eq_nil_of_length_eq_zero (by omega)
    subst this
    simp [processPairs]
  | succ N ih =>
    intro ws hlen
    match ws with
    | [] => simp [processPairs]
    | [x] =>
      simp only [List.length_cons, List.length_nil]
      rw [if_neg (by omega)]
      rfl
    | x :: y :: rest =>
      obtain ⟨ab, hab⟩ : ∃ ab, p (x, y) = some ab :=
        Option.isSome_iff_exists.mp (hp (x, y))
      have hrest := ih rest (by simp at hlen ⊢; omega)
      have hpar : (2 ∣ (x :: y :: rest).length) ↔ (2 ∣ rest.length) := by
        simp only [List.length_cons]
        constructor <;> intro h <;> omega
      by_cases hd : 2 ∣ rest.length
      · rw [if_pos (hpar.mpr hd)]
        rw [if_pos hd] at hrest
        obtain ⟨out, hout, houtlen⟩ := hrest
        refine ⟨wordToLE u ab.1 ++ wordToLE u ab.2 ++ out, ?_, ?_⟩
        · show (match p (x, y) with
            | none => none
            | some ab =>
              match processPairs u p rest with
              | none => none
              | some (Except.error e) => some (Except.error e)
              | some (Except.ok out) => some (Except.ok (wordToLE u ab.1 ++ wordToLE u ab.2 ++ out))) = _
          rw [hab, hout]
        · simp [List.length_append, wordToLE_length, houtlen, List.length_cons]
          ring
      · rw [if_neg (fun h => hd (hpar.mp h))]
        rw [if_neg hd] at hrest
        show (match p (x, y) with
          | none => none
          | some ab =>
            match processPairs u p rest with
            | none => none
            | some (Except.error e) => some (Except.error e)
            | some (Except.ok out) => some (Except.ok (wordToLE u ab.1 ++ wordToLE u ab.2 ++ out))) = _
        rw [hab, hrest]

lemma pow256_eq (w u : Nat) (hw8 : w = 8 * u) : (256 : Nat) ^ u = 2 ^ w := by
  rw [hw8, Nat.pow_mul]

lemma processPairs_roundtrip (w u : Nat) (pe pd : Nat × Nat → Option (Nat × Nat))
    (hw8 : w = 8 * u) (hu : 0 < u)
    (hinv : ∀ x y, x < 2 ^ w → y < 2 ^ w →
      ∃ a b, pe (x, y) = some (a, b) ∧ a < 2 ^ w ∧ b < 2 ^ w ∧ pd (a, b) = some (x, y)) :
    ∀ (k : Nat) (bs : List Nat), (∀ x ∈ bs, x < 256) → bs.length = 2 * u * k →
      ∃ ct, processPairs u pe ((chunks u bs).map wordFromLE) = some (Except.ok ct) ∧
        ct.length = bs.length ∧ (∀ x ∈ ct, x < 256) ∧
        processPairs u pd ((chunks u ct).map wordFromLE) = some (Except.ok bs) := by
  have h256 : (256 : Nat) ^ u = 2 ^ w := pow256_eq w u hw8
  intro k
  induction k with
  | zero =>
    intro bs hbs hlen
    have : bs = [] := List.eq_nil_of_length_eq_zero (by omega)
    subst this
    exact ⟨[], by rw [chunks_nil]; rfl, rfl, by simp, by rw [chunks_nil]; rfl⟩
  | succ k ih =>
    intro bs hbs hlen
    set c1 := bs.take u with hc1
    set c2 := (bs.drop u).take u with hc2
    set rest := (bs.drop u).drop u with hrest
    have hlc1 : c1.length = u := by
      rw [hc1, List.length_take]
      have : u ≤ bs.length := by rw [hlen]; nlinarith
      omega
    have hlc2 : c2.length = u := by
      rw [hc2, List.length_take, List.length_drop]
      have : 2 * u ≤ bs.length := by rw [hlen]; nlinarith
      omega
    have hlrest : rest.length = 2 * u * k := by
      rw [hrest, List.length_drop, List.length_drop, hlen]
      ring_nf
      omega
    have hbseq : bs = c1 ++ (c2 ++ rest) := by
      rw [hc1, hc2, hrest, List.take_append_drop, List.take_append_drop]
    have hc1mem : ∀ x ∈ c1, x < 256 := fun x hx => hbs x (List.take_subset u bs hx)
    have hc2mem : ∀ x ∈ c2, x < 256 :=
      fun x hx => hbs x (List.drop_subset u bs (List.take_subset u _ hx))
    have hrestmem : ∀ x ∈ rest, x < 256 :=
      fun x hx => hbs x (List.drop_subset u bs (List.drop_subset u _ hx))
    have hchunks : chunks u bs = c1 :: c2 :: chunks u rest := by
      rw [hbseq, chunks_cons u c1 _ hlc1 hu, chunks_cons u c2 _ hlc2 hu]
    have hx : wordFromLE c1 < 2 ^ w := by
      rw [← h256, ← hlc1]; exact wordFromLE_lt c1 hc1mem
    have hy : wordFromLE c2 < 2 ^ w := by
      rw [← h256, ← hlc2]; exact wordFromLE_lt c2 hc2mem
    obtain ⟨a, b, hpe, haw, hbw, hpd⟩ := hinv (wordFromLE c1) (wordFromLE c2) hx hy
    obtain ⟨ct2, hct2, hct2len, hct2mem, hct2dec⟩ := ih rest hrestmem hlrest
    refine ⟨wordToLE u a ++ wordToLE u b ++ ct2, ?_, ?_, ?_, ?_⟩
    · rw [hchunks]
      show (match pe (wordFromLE c1, wordFromLE c2) with
        | none => none
        | some ab =>
          match processPairs u pe ((chunks u rest).map wordFromLE) with
          | none => none
          | some (Except.error e) => some (Except.error e)
          | some (Except.ok out) => some (Except.ok (wordToLE u ab.1 ++ wordToLE u ab.2 ++ out))) = _
      rw [hpe, hct2]
    · simp only [List.length_append, wordToLE_length, hct2len, hlrest, hlen]
      ring
    · intro x hx2
      simp only [List.mem_append] at hx2
      rcases hx2 with (h | h) | h
      · exact wordToLE_lt u a x h
      · exact wordToLE_lt u b x h
      · exact hct2mem x h
    · have hchunksct : chunks u (wordToLE u a ++ wordToLE u b ++ ct2) =
          wordToLE u a :: wordToLE u b :: chunks u ct2 := by
        rw [List.append_assoc, chunks_cons u _ _ (wordToLE_length u a) hu,
          chunks_cons u _ _ (wordToLE_length u b) hu]
      rw [hchunksct]
      show (match pd (wordFromLE (wordToLE u a), wordFromLE (wordToLE u b)) with
        | none => none
        | some ab =>
          match processPairs u pd ((chunks u ct2).map wordFromLE) with
          | none => none
          | some (Except.error e) => some (Except.error e)
          | some (Except.ok out) => some (Except.ok (wordToLE u ab.1 ++ wordToLE u ab.2 ++ out))) = _
      rw [wordFromLE_toLE u a (by rw [h256]; exact haw),
        wordFromLE_toLE u b (by rw [h256]; exact hbw), hpd, hct2dec]
      have htx : wordToLE u (wordFromLE c1) = c1 := by
        rw [← hlc1]; exact wordToLE_fromLE c1 hc1mem
      have hty : wordToLE u (wordFromLE c2) = c2 := by
        rw [← hlc2]; exact wordToLE_fromLE c2 hc2mem
      dsimp only
      rw [htx, hty, hbseq, List.append_assoc]

/-! ### In-bounds table access: the round functions never panic on a
full-size table -/

lemma encodeRounds_isSome (w : Nat) (tbl : List Nat) :
    ∀ (n idx : Nat) (ab : Nat × Nat), 2 * idx + 2 * n ≤ tbl.length →
      (encodeRounds w tbl idx n ab).isSome := by
  intro n
  induction n with
  | zero => intro idx ab _; rfl
  | succ n ih =>
    intro idx ab hlen
    obtain ⟨k, hk⟩ : ∃ k, tbl.get? (2 * idx) = some k :=
      ⟨_, List.get?_eq_get (by omega)⟩
    obtain ⟨k2, hk2⟩ : ∃ k2, tbl.get? (2 * idx + 1) = some k2 :=
      ⟨_, List.get?_eq_get (by omega)⟩
    show (match encodeRound w tbl idx ab with
      | none => none
      | some ab2 => encodeRounds w tbl (idx + 1) n ab2).isSome
    unfold encodeRound
    rw [hk, hk2]
    exact ih (idx + 1) _ (by omega)

lemma decodeRounds_isSome (w : Nat) (tbl : List Nat) :
    ∀ (n : Nat) (ab : Nat × Nat), 2 * n + 2 ≤ tbl.length →
      (decodeRounds w tbl n ab).isSome := by
  intro n
  induction n with
  | zero => intro ab _; rfl
  | succ n ih =>
    intro ab hlen
    obtain ⟨k2, hk2⟩ : ∃ k2, tbl.get? (2 * (n + 1) + 1) = some k2 :=
      ⟨_, List.get?_eq_get (by omega)⟩
    obtain ⟨k, hk⟩ : ∃ k, tbl.get? (2 * (n + 1)) = some k :=
      ⟨_, List.get?_eq_get (by omega)⟩
    show (match decodeRound w tbl (n + 1) ab with
      | none => none
      | some ab2 => decodeRounds w tbl n ab2).isSome
    unfold decodeRound
    rw [hk2, hk]
    exact ih _ (by omega)

lemma rc5_encode_isSome (w : Nat) (tbl : List Nat) (r : Nat) (ab : Nat × Nat)
    (hlen : 2 * (r + 1) ≤ tbl.length) : (rc5_encode w tbl r ab).isSome := by
  obtain ⟨k0, hk0⟩ : ∃ k0, tbl.get? 0 = some k0 := ⟨_, List.get?_eq_get (by omega)⟩
  obtain ⟨k1, hk1⟩ : ∃ k1, tbl.get? 1 = some k1 := ⟨_, List.get?_eq_get (by omega)⟩
  unfold rc5_encode
  rw [hk0, hk1]
  exact encodeRounds_isSome w tbl r 1 _ (by omega)

lemma rc5_decode_isSome (w : Nat) (tbl : List Nat) (r : Nat) (ab : Nat × Nat)
    (hlen : 2 * (r + 1) ≤ tbl.length) : (rc5_decode w tbl r ab).isSome := by
  obtain ⟨k0, hk0⟩ : ∃ k0, tbl.get? 0 = some k0 := ⟨_, List.get?_eq_get (by omega)⟩
  obtain ⟨k1, hk1⟩ : ∃ k1, tbl.get? 1 = some k1 := ⟨_, List.get?_eq_get (by omega)⟩
  have hds := decodeRounds_isSome w tbl r ab (by omega)
  obtain ⟨ab2, hab2⟩ := Option.isSome_iff_exists.mp hds
  unfold rc5_decode
  rw [hab2, hk1, hk0]
  rfl

/-! ### Chunk count and the full validation spec of `process_blocks` -/

lemma chunks_length_of_dvd (u : Nat) (hu : 0 < u) :
    ∀ (k : Nat) (l : List Nat), l.length = u * k → (chunks u l).length = k := by
  intro k
  induction k with
  | zero =>
    intro l hl
    have : l = [] := List.eq_nil_of_length_eq_zero (by omega)
    subst this
    rw [chunks_nil]
    rfl
  | succ k ih =>
    intro l hl
    have hsplit : l = l.take u ++ l.drop u := (List.take_append_drop u l).symm
    have hlt : (l.take u).length = u := by
      rw [List.length_take]
      have : u ≤ l.length := by rw [hl]; nlinarith
      omega
    have hld : (l.drop u).length = u * k := by
      rw [List.length_drop, hl]
      ring_nf
      omega
    rw [hsplit, chunks_cons u _ _ hlt hu, List.length_cons, ih _ hld]

lemma process_blocks_spec (w : Nat) (input : List Nat) (p : Nat × Nat → Option (Nat × Nat))
    (hu : 0 < w / 8) (hp : ∀ blk, (p blk).isSome) :
    (process_blocks w input p = some (Except.error Error.WrongInputSize) ↔
      input.length % (w / 8) ≠ 0 ∨ Odd (input.length / (w / 8))) ∧
    ∀ out, process_blocks w input p = some (Except.ok out) → out.length = input.length := by
  by_cases hmod : input.length % (w / 8) = 0
  · have hdvd : (w / 8) ∣ input.length := Nat.dvd_of_mod_eq_zero hmod
    have hkl : (w / 8) * (input.length / (w / 8)) = input.length := Nat.mul_div_cancel' hdvd
    have hwords : ((chunks (w / 8) input).map wordFromLE).length = input.length / (w / 8) := by
      rw [List.length_map, chunks_length_of_dvd (w / 8) hu _ input hkl.symm]
    have hproc : process_blocks w input p =
        processPairs (w / 8) p ((chunks (w / 8) input).map wordFromLE) := by
      unfold process_blocks
      rw [if_neg (not_not_intro hmod)]
    have hspec := processPairs_spec (w / 8) p hp
      ((chunks (w / 8) input).map wordFromLE).length
      ((chunks (w / 8) input).map wordFromLE) le_rfl
    by_cases hpar : 2 ∣ input.length / (w / 8)
    · rw [if_pos (by rw [hwords]; exact hpar)] at hspec
      obtain ⟨out, hout, houtlen⟩ := hspec
      constructor
      · constructor
        · intro h
          rw [hproc, hout] at h
          exact absurd h (by simp)
        · intro h
          rcases h with h | h
          · exact absurd hmod h
          · have h0 : input.length / (w / 8) % 2 = 0 := Nat.mod_eq_zero_of_dvd hpar
            have h1 : input.length / (w / 8) % 2 = 1 := Nat.odd_iff.mp h
            rw [h0] at h1
            exact absurd h1 (by decide)
      · intro out2 hout2
        rw [hproc, hout] at hout2
        have heq : out = out2 := by
          injection hout2 with h
          injection h
        rw [← heq, houtlen, hwords, hkl]
    · rw [if_neg (by rw [hwords]; exact hpar)] at hspec
      constructor
      · constructor
        · intro _
          right
          rw [Nat.odd_iff]
          rcases Nat.mod_two_eq_zero_or_one (input.length / (w / 8)) with h0 | h1
          · exact absurd (Nat.dvd_of_mod_eq_zero h0) hpar
          · exact h1
        · intro _
          rw [hproc, hspec]
      · intro out hout
        rw [hproc, hspec] at hout
        exact absurd hout (by simp)
  · have herr : process_blocks w input p = some (Except.error Error.WrongInputSize) := by
      unfold process_blocks
      rw [if_pos hmod]
    constructor
    · rw [herr]
      simp only [Option.some_inj, true_iff]
      left
      exact hmod
    · intro out hout
      rw [herr] at hout
      exact absurd hout (by simp)

/-! ### The iterator agrees with the spec recurrence -/

lemma prksTake_seqSpec (w : Nat) :
    ∀ (n k : Nat), prksTake w (seqSpec w k) n =
      (List.range n).map (fun i => seqSpec w (k + i)) := by
  intro n
  induction n with
  | zero => intro k; rfl
  | succ n ih =>
    intro k
    rw [List.range_succ_eq_map]
    show seqSpec w k :: prksTake w (wadd w (seqSpec w k) (GetQ w)) n = _
    rw [show wadd w (seqSpec w k) (GetQ w) = seqSpec w (k + 1) from rfl, ih (k + 1)]
    simp only [List.map_cons, List.map_map, Nat.add_zero, List.cons.injEq, true_and]
    congr 1
    funext i
    simp only [Function.comp_apply]
    congr 1
    omega

/-! ## Claim theorems -/

/-- C7: the pseudo-random key sequence emitted by the iterator satisfies
`S 0 = P` and `S (i+1) = S i + Q` (wraparound): any run of the iterator
from its `Default` state yields exactly the first `n` values of the
recurrence, so restarting reproduces the same values; and the width-32
magic constants are the fixed literals `0xb7e15163` and `0x9e3779b9`. -/
theorem claim_C7_sequence :
    (∀ w n, prksTake w (GetP w) n = (List.range n).map (seqSpec w)) ∧
    (∀ w, seqSpec w 0 = GetP w) ∧
    (∀ w i, seqSpec w (i + 1) = wadd w (seqSpec w i) (GetQ w)) ∧
    GetP 32 = 0xb7e15163 ∧ GetQ 32 = 0x9e3779b9 := by
  refine ⟨?_, fun w => rfl, fun w i => rfl, rfl, rfl⟩
  intro w n
  have h := prksTake_seqSpec w n 0
  simpa using h

/-- C9: both rotations reduce their amount modulo the width before
rotating — rotating by `n` equals rotating by `n % w`, and in particular
a request of `w * 5 + 3` behaves exactly like a request of `3`. -/
theorem claim_C9_rotation_mod (w x n : Nat) :
    rotate_word_left w x n = rotate_word_left w x (n % w) ∧
    rotate_word_right w x n = rotate_word_right w x (n % w) ∧
    rotate_word_left w x (w * 5 + 3) = rotate_word_left w x 3 ∧
    rotate_word_right w x (w * 5 + 3) = rotate_word_right w x 3 := by
  have hmm : n % w % w = n % w := Nat.mod_mod_of_dvd n dvd_rfl
  have h53 : (w * 5 + 3) % w = 3 % w := by
    rw [show w * 5 + 3 = 3 + 5 * w from by ring]
    exact Nat.add_mul_mod_self_right 3 5 w
  refine ⟨?_, ?_, ?_, ?_⟩
  · unfold rotate_word_left
    rw [hmm]
  · unfold rotate_word_right
    rw [hmm]
  · unfold rotate_word_left
    rw [h53]
  · unfold rotate_word_right
    rw [h53]

/-- C10: on a subkey table of the exact length `2 * (r + 1)` produced by
the key schedule, neither `rc5_encode` nor `rc5_decode` ever reaches an
out-of-bounds table index (all accesses are `0 … 2r+1`), so neither can
panic on the table. -/
theorem claim_C10_table_access_in_bounds (w r : Nat) (tbl : List Nat) (ab : Nat × Nat)
    (hlen : tbl.length = 2 * (r + 1)) :
    (rc5_encode w tbl r ab).isSome ∧ (rc5_decode w tbl r ab).isSome :=
  ⟨rc5_encode_isSome w tbl r ab (by omega), rc5_decode_isSome w tbl r ab (by omega)⟩

/-- Witness for C10 at width 8, zero rounds, table `[0, 1]`. -/
theorem claim_C10_witness :
    ([0, 1] : List Nat).length = 2 * (0 + 1) ∧
    ((rc5_encode 8 [0, 1] 0 (0, 0)).isSome ∧ (rc5_decode 8 [0, 1] 0 (0, 0)).isSome) :=
  ⟨by decide, claim_C10_table_access_in_bounds 8 0 [0, 1] (0, 0) (by decide)⟩

/-- C6: whenever key expansion yields a nonempty word list `kw`, the
mixing phase runs the loop exactly `3 * max (2 * (r + 1)) kw.length`
times (the fuel of `mixinLoop` below) and every table it returns has
exactly `2 * (r + 1)` words. -/
theorem claim_C6_subkey_shape (w r : Nat) (key kw : List Nat)
    (hexp : expand_key_to_words w key = some kw) (hne : kw.length ≠ 0) :
    mixin w key r = some ((mixinLoop w (3 * max (2 * (r + 1)) kw.length)
      (collect_for_rounds_count w r) kw 0 0 0 0).1) ∧
    ∀ tbl, mixin w key r = some tbl → tbl.length = 2 * (r + 1) := by
  have h1 : mixin w key r = some ((mixinLoop w
      (3 * max (collect_for_rounds_count w r).length kw.length)
      (collect_for_rounds_count w r) kw 0 0 0 0).1) := by
    unfold mixin
    rw [hexp]
    show (if kw.length = 0 then none
      else some ((mixinLoop w (3 * max (collect_for_rounds_count w r).length kw.length)
        (collect_for_rounds_count w r) kw 0 0 0 0).1)) = _
    rw [if_neg hne]
  constructor
  · rw [h1, collect_length]
  · intro tbl htbl
    rw [h1] at htbl
    injection htbl with h
    rw [← h, mixinLoop_fst_length, collect_length]

/-- Witness for C6 at width 8, key `[7]`, zero rounds. -/
theorem claim_C6_witness :
    expand_key_to_words 8 [7] = some [7] ∧ ([7] : List Nat).length ≠ 0 ∧
    (mixin 8 [7] 0 = some ((mixinLoop 8 (3 * max (2 * (0 + 1)) ([7] : List Nat).length)
      (collect_for_rounds_count 8 0) [7] 0 0 0 0).1) ∧
    ∀ tbl, mixin 8 [7] 0 = some tbl → tbl.length = 2 * (0 + 1)) :=
  ⟨by decide, by decide, claim_C6_subkey_shape 8 0 [7] [7] (by decide) (by decide)⟩

set_option maxRecDepth 100000 in
/-- C5: the known mixing vector — key bytes `0, 1, …, 127`, width 8,
one round — yields the subkey table `[168, 6, 50, 92]`. -/
theorem claim_C5_known_mixing_vector :
    mixin 8 (List.range 128) 1 = some [168, 6, 50, 92] := by decide

/-- C8: the known block vectors at width 16, one round, subkey table
`[0, 1, 2, 3]`: encoding `(10, 10)` yields `(2050, 8231)` and decoding
`(2050, 8231)` yields `(10, 10)` back. -/
theorem claim_C8_known_vectors :
    rc5_encode 16 [0, 1, 2, 3] 1 (10, 10) = some (2050, 8231) ∧
    rc5_decode 16 [0, 1, 2, 3] 1 (2050, 8231) = some (10, 10) := by decide

/-- C2 (bug): key expansion allocates `max(b,1) / (w/8)` words with FLOOR
division, not the claimed `max(1, ⌈b / (w/8)⌉)`.  At width 16 a 1-byte
key allocates 0 words and the write `words[0]` is an out-of-bounds panic
(`none`), and a 0-byte key yields 0 words instead of the claimed single
zero word. -/
theorem claim_C2_expansion_shape_bug :
    expand_key_to_words 16 [0] = none ∧
    expand_key_to_words 16 ([] : List Nat) = some [] := by decide

/-- C3 (bug): encoding a well-sized buffer at width 16 with the legal
1-byte key `[0]` panics inside key expansion (`none`) — a failure that is
not `WrongInputSize`, contradicting the claim that the codec has no other
failure mode. -/
theorem claim_C3_only_failure_mode_bug :
    encode_as_blocks 16 [0] 0 [1, 2, 3, 4] = none := by decide

/-- C1 counterexample: at width 16, round count 0, the legal key length
1 (key `[0]`) and the well-sized 4-byte buffer `[1, 2, 3, 4]`, encoding
does not produce any ciphertext (key expansion panics), so the round trip
claimed for every key length in 0..=255 fails. -/
theorem claim_C1_roundtrip_counterexample :
    ¬ ∃ ct, encode_as_blocks 16 [0] 0 [1, 2, 3, 4] = some (Except.ok ct) ∧
      decode_as_blocks 16 [0] 0 ct = some (Except.ok [1, 2, 3, 4]) := by
  rintro ⟨ct, hct, -⟩
  rw [show encode_as_blocks 16 [0] 0 [1, 2, 3, 4] = none from by decide] at hct
  exact Option.noConfusion hct

/-- C1 (amended): the round trip holds for every width that is a whole
number of bytes, every round count, and every key whose byte length is a
multiple of `w/8` (with the zero-length key only at width 8, where
expansion still yields one word): decoding the encoding of any byte
buffer whose length is a positive multiple of `2 * (w/8)` returns the
original buffer. -/
theorem claim_C1_roundtrip_amended (w r : Nat) (key pt : List Nat)
    (hu : 0 < w / 8) (hw8 : w = 8 * (w / 8))
    (hdvd : (w / 8) ∣ key.length) (hpos : 0 < key.length ∨ w / 8 = 1)
    (hbytes : ∀ x ∈ pt, x < 256) (hlen : (2 * (w / 8)) ∣ pt.length)
    (hlenpos : 0 < pt.length) :
    ∃ ct, encode_as_blocks w key r pt = some (Except.ok ct) ∧
      decode_as_blocks w key r ct = some (Except.ok pt) := by
  have hw : 0 < w := by omega
  obtain ⟨tbl, hmix, htbl⟩ := mixin_spec w key r hu hdvd hpos
  have hinv : ∀ x y, x < 2 ^ w → y < 2 ^ w →
      ∃ a b, rc5_encode w tbl r (x, y) = some (a, b) ∧ a < 2 ^ w ∧ b < 2 ^ w ∧
        rc5_decode w tbl r (a, b) = some (x, y) := by
    intro x y hx hy
    exact rc5_roundtrip w tbl r x y hw hx hy htbl
  have hk : pt.length = 2 * (w / 8) * (pt.length / (2 * (w / 8))) :=
    (Nat.mul_div_cancel' hlen).symm
  obtain ⟨ct, hct_enc, hctlen, hctmem, hct_dec⟩ :=
    processPairs_roundtrip w (w / 8) (fun b => rc5_encode w tbl r b)
      (fun b => rc5_decode w tbl r b) hw8 hu hinv (pt.length / (2 * (w / 8))) pt hbytes hk
  have hdvdpt : (w / 8) ∣ pt.length := dvd_trans ⟨2, by ring⟩ hlen
  have hdvdct : (w / 8) ∣ ct.length := by rw [hctlen]; exact hdvdpt
  have hpe : (fun b => match mixin w key r with
      | none => none
      | some key_table => rc5_encode w key_table r b) =
      (fun b => rc5_encode w tbl r b) := by
    funext b
    rw [hmix]
  have hpd : (fun b => match mixin w key r with
      | none => none
      | some key_table => rc5_decode w key_table r b) =
      (fun b => rc5_decode w tbl r b) := by
    funext b
    rw [hmix]
  refine ⟨ct, ?_, ?_⟩
  · unfold encode_as_blocks process_blocks
    rw [hpe, if_neg (not_not_intro (Nat.mod_eq_zero_of_dvd hdvdpt))]
    exact hct_enc
  · unfold decode_as_blocks process_blocks
    rw [hpd, if_neg (not_not_intro (Nat.mod_eq_zero_of_dvd hdvdct))]
    exact hct_dec

/-- Witness for amended C1 at width 8, key `[1, 2, 3]`, zero rounds,
plaintext `[5, 6]`. -/
theorem claim_C1_roundtrip_amended_witness :
    (0 < 8 / 8) ∧ (8 = 8 * (8 / 8)) ∧ ((8 / 8) ∣ ([1, 2, 3] : List Nat).length) ∧
    (∀ x ∈ ([5, 6] : List Nat), x < 256) ∧ ((2 * (8 / 8)) ∣ ([5, 6] : List Nat).length) ∧
    (0 < ([5, 6] : List Nat).length) ∧
    (∃ ct, encode_as_blocks 8 [1, 2, 3] 0 [5, 6] = some (Except.ok ct) ∧
      decode_as_blocks 8 [1, 2, 3] 0 ct = some (Except.ok [5, 6])) :=
  ⟨by decide, by decide, by decide, by decide, by decide, by decide,
    claim_C1_roundtrip_amended 8 0 [1, 2, 3] [5, 6] (by decide) (by decide) (by decide)
      (Or.inl (by decide)) (by decide) (by decide) (by decide)⟩

/-- C4: with a key the schedule accepts (length a multiple of `w/8`,
nonzero unless the word is one byte), the codec — encode or decode —
fails with `WrongInputSize` exactly when the buffer length is not a
multiple of `w/8` or splits into an odd number of words, and on success
the output length equals the input length. -/
theorem claim_C4_validation (w r : Nat) (key input : List Nat)
    (hu : 0 < w / 8) (hdvd : (w / 8) ∣ key.length) (hpos : 0 < key.length ∨ w / 8 = 1) :
    ((encode_as_blocks w key r input = some (Except.error Error.WrongInputSize) ↔
        input.length % (w / 8) ≠ 0 ∨ Odd (input.length / (w / 8))) ∧
      (decode_as_blocks w key r input = some (Except.error Error.WrongInputSize) ↔
        input.length % (w / 8) ≠ 0 ∨ Odd (input.length / (w / 8)))) ∧
    (∀ out, encode_as_blocks w key r input = some (Except.ok out) →
      out.length = input.length) ∧
    (∀ out, decode_as_blocks w key r input = some (Except.ok out) →
      out.length = input.length) := by
  obtain ⟨tbl, hmix, htbl⟩ := mixin_spec w key r hu hdvd hpos
  have hpe : (fun b => match mixin w key r with
      | none => none
      | some key_table => rc5_encode w key_table r b) =
      (fun b => rc5_encode w tbl r b) := by
    funext b
    rw [hmix]
  have hpd : (fun b => match mixin w key r with
      | none => none
      | some key_table => rc5_decode w key_table r b) =
      (fun b => rc5_decode w tbl r b) := by
    funext b
    rw [hmix]
  have he : encode_as_blocks w key r input =
      process_blocks w input (fun b => rc5_encode w tbl r b) := by
    unfold encode_as_blocks
    rw [hpe]
  have hd : decode_as_blocks w key r input =
      process_blocks w input (fun b => rc5_decode w tbl r b) := by
    unfold decode_as_blocks
    rw [hpd]
  have hse := process_blocks_spec w input (fun b => rc5_encode w tbl r b) hu
    (fun blk => rc5_encode_isSome w tbl r blk (by omega))
  have hsd := process_blocks_spec w input (fun b => rc5_decode w tbl r b) hu
    (fun blk => rc5_decode_isSome w tbl r blk (by omega))
  exact ⟨⟨by rw [he]; exact hse.1, by rw [hd]; exact hsd.1⟩,
    fun out h => hse.2 out (by rw [← he]; exact h),
    fun out h => hsd.2 out (by rw [← hd]; exact h)⟩

/-- Witness for C4 at width 8, key `[9]`, zero rounds, input `[1, 2, 3]`
(three words: an odd count, hence `WrongInputSize`). -/
theorem claim_C4_witness :
    (0 < 8 / 8) ∧ ((8 / 8) ∣ ([9] : List Nat).length) ∧
    (((encode_as_blocks 8 [9] 0 [1, 2, 3] = some (Except.error Error.WrongInputSize) ↔
        ([1, 2, 3] : List Nat).length % (8 / 8) ≠ 0 ∨
          Odd (([1, 2, 3] : List Nat).length / (8 / 8))) ∧
      (decode_as_blocks 8 [9] 0 [1, 2, 3] = some (Except.error Error.WrongInputSize) ↔
        ([1, 2, 3] : List Nat).length % (8 / 8) ≠ 0 ∨
          Odd (([1, 2, 3] : List Nat).length / (8 / 8)))) ∧
    (∀ out, encode_as_blocks 8 [9] 0 [1, 2, 3] = some (Except.ok out) →
      out.length = ([1, 2, 3] : List Nat).length) ∧
    (∀ out, decode_as_blocks 8 [9] 0 [1, 2, 3] = some (Except.ok out) →
      out.length = ([1, 2, 3] : List Nat).length)) :=
  ⟨by decide, by decide,
    claim_C4_validation 8 0 [9] [1, 2, 3] (by decide) (by decide) (Or.inl (by decide))⟩

end RC5
